import Mathlib

/-
Verification of the schedule-inclusion core of kubectl-cls.

The program lists CronJobs and CronWorkflows whose cron schedule fires at
least once inside a closed time window [from, to].  This file embeds the
core of `main.go` — the window-inclusion predicate `isInclude`, the two
collection filters `getScheduleIncludedCronJobs` and
`getScheduleIncludedCronWorkflows`, and the window computation of `run` —
and proves the specified properties about them.

Times are modelled as Unix epoch seconds (Int), matching the use the program
makes of UTC-normalized `time.Time` values.  The cron schedule library
(robfig/cron) is an external dependency; its parser and next-occurrence
evaluator are modelled from the spec (standard 5-field cron syntax, and
`nextAfter t` = earliest occurrence strictly later than `t`).
-/

/-! ## Calendar arithmetic

Epoch-day to civil-date conversion (proleptic Gregorian calendar),
needed to evaluate the day-of-month, month and day-of-week cron fields. -/

/-- Convert a count of days since 1970-01-01 to (year, month, day). -/
def civilFromDays (z : Int) : Int × Int × Int :=
  let z' := z + 719468
  let era := z' / 146097
  let doe := z' - era * 146097
  let yoe := (doe - doe / 1460 + doe / 36524 - doe / 146096) / 365
  let doy := doe - (365 * yoe + yoe / 4 - yoe / 100)
  let mp := (5 * doy + 2) / 153
  let d := doy - (153 * mp + 2) / 5 + 1
  let m := if mp < 10 then mp + 3 else mp - 9
  (if m ≤ 2 then era * 400 + yoe + 1 else era * 400 + yoe, m, d)

/-! ## Cron schedules

Modelled from the spec: a `ScheduleSpec` is a string in standard 5-field
cron syntax (minute hour day-of-month month day-of-week); parsing turns it
into an evaluable schedule.  The underlying library (robfig/cron
`ParseStandard`) is not part of the sources of the repository. -/

/-- One parsed cron field: the set of accepted values, plus whether the
field was written as a bare `*` (which changes day-of-month/day-of-week
interaction, as in standard cron). -/
structure FieldSpec where
  star : Bool
  vals : List Nat
deriving DecidableEq

/-- A parsed standard 5-field cron schedule. -/
structure CronSched where
  minute : FieldSpec
  hour : FieldSpec
  dom : FieldSpec
  month : FieldSpec
  dow : FieldSpec
deriving DecidableEq

/-- Split a character list on a separator character. -/
def splitOnChar (c : Char) (l : List Char) : List (List Char) :=
  match l with
  | [] => [[]]
  | x :: xs =>
    let r := splitOnChar c xs
    if x = c then [] :: r
    else
      match r with
      | [] => [[x]]
      | t :: ts => (x :: t) :: ts

/-- Parse a non-empty all-digit character list as a natural number. -/
def digitsToNatAux (acc : Nat) : List Char → Option Nat
  | [] => some acc
  | c :: cs => if c.isDigit then digitsToNatAux (acc * 10 + (c.toNat - 48)) cs else none

/-- Modelled from the spec: numeric token of a cron field. -/
def digitsToNat (l : List Char) : Option Nat :=
  match l with
  | [] => none
  | _ => digitsToNatAux 0 l

/-- The arithmetic progression a, a+step, ... bounded by b. -/
def rangeStep (a b step : Nat) : List Nat :=
  if step = 0 then [] else (List.range ((b - a) / step + 1)).map (fun i => a + i * step)

/-- Modelled from the spec: one comma-separated piece of a cron field, of
the form `*`, `a`, `a-b`, optionally followed by `/step` (where `a/step`
means `a-hi/step`).  Returns (was a bare star, accepted values); `none` on
a malformed or out-of-range piece. -/
def parseBase (lo hi : Nat) (base : List Char) (hasStep : Bool) (step : Nat) :
    Option (Bool × List Nat) :=
  if base = ['*'] then some (true, rangeStep lo hi step)
  else
    match splitOnChar '-' base with
    | [aTok] =>
      match digitsToNat aTok with
      | none => none
      | some a =>
        if a < lo || hi < a then none
        else if hasStep then some (false, rangeStep a hi step)
        else some (false, [a])
    | [aTok, bTok] =>
      match digitsToNat aTok, digitsToNat bTok with
      | some a, some b =>
        if a < lo || hi < b || b < a then none else some (false, rangeStep a b step)
      | _, _ => none
    | _ => none

/-- Parse one comma-separated piece of a cron field, splitting off an
optional `/step` suffix. -/
def parseRange (lo hi : Nat) (tok : List Char) : Option (Bool × List Nat) :=
  match splitOnChar '/' tok with
  | [base] => parseBase lo hi base false 1
  | [base, stepTok] =>
    match digitsToNat stepTok with
    | none => none
    | some 0 => none
    | some step => parseBase lo hi base true step
  | _ => none

/-- Combine the comma-separated pieces of one cron field. -/
def combineRanges (lo hi : Nat) : List (List Char) → Option (Bool × List Nat)
  | [] => some (false, [])
  | r :: rs => do
    let p1 ← parseRange lo hi r
    let p2 ← combineRanges lo hi rs
    some (p1.1 || p2.1, p1.2 ++ p2.2)

/-- Parse one whitespace-separated cron field. -/
def parseField (lo hi : Nat) (tok : List Char) : Option FieldSpec :=
  (combineRanges lo hi (splitOnChar ',' tok)).map (fun p => ⟨p.1, p.2⟩)

/-- Modelled from the spec: `parse(spec) -> Schedule` for standard 5-field
cron syntax (minute 0-59, hour 0-23, day-of-month 1-31, month 1-12,
day-of-week 0-6); `none` when the expression does not conform.  This
models the external `cron.ParseStandard` used at main.go:179/209. -/
def parseStandard (s : String) : Option CronSched :=
  match (splitOnChar ' ' s.data).filter (fun t => !t.isEmpty) with
  | [minTok, hourTok, domTok, monTok, dowTok] => do
    let minuteF ← parseField 0 59 minTok
    let hourF ← parseField 0 23 hourTok
    let domF ← parseField 1 31 domTok
    let monthF ← parseField 1 12 monTok
    let dowF ← parseField 0 6 dowTok
    some ⟨minuteF, hourF, domF, monthF, dowF⟩
  | _ => none

/-- Standard cron day-of-month/day-of-week interaction: when either field
is a bare `*` the two constraints are conjoined, otherwise a day matching
either constraint is accepted. -/
def dayMatches (s : CronSched) (day wd : Nat) : Bool :=
  let domOk := s.dom.vals.contains day
  let dowOk := s.dow.vals.contains wd
  if s.dom.star || s.dow.star then domOk && dowOk else domOk || dowOk

/-- Whether the schedule fires at epoch minute `m` (occurrences of a
standard cron schedule are whole minutes, at second 0). -/
def matchesMinute (s : CronSched) (m : Int) : Bool :=
  let days := m / 1440
  let minuteOfDay := (m % 1440).toNat
  let hour := minuteOfDay / 60
  let minute := minuteOfDay % 60
  let c := civilFromDays days
  let wd := ((days + 4) % 7).toNat
  s.minute.vals.contains minute && s.hour.vals.contains hour &&
    s.month.vals.contains c.2.1.toNat && dayMatches s c.2.2.toNat wd

/-- Whether the schedule has an occurrence exactly at epoch second `t`. -/
def occursAt (s : CronSched) (t : Int) : Bool :=
  t % 60 == 0 && matchesMinute s (t / 60)

/-- Scan forward one minute at a time for the first firing minute. -/
def searchFrom (s : CronSched) : Nat → Int → Option Int
  | 0, _ => none
  | fuel + 1, m => if matchesMinute s m then some m else searchFrom s fuel (m + 1)

/-- Five years of minutes: the search horizon after which the underlying
cron library gives up and returns the zero time. -/
def searchFuel : Nat := 2628000

/-- The Go zero time (January 1, year 1 UTC) in epoch seconds: what the
`Next` of the cron library returns when no occurrence is found within its horizon. -/
def goZeroTime : Int := -62135596800

/-- Modelled from the spec: `nextAfter(t)` — the earliest occurrence of the
schedule strictly later than `t` (`sched.Next(from)` of the external cron
library; exclusive of its argument, zero time past the search horizon). -/
def nextAfter (s : CronSched) (t : Int) : Int :=
  match searchFrom s searchFuel (t / 60 + 1) with
  | some m => m * 60
  | none => goZeroTime

/-- Whether the schedule is included in the from-to period
(main.go:230-246, `isInclude`). -/
def isInclude (sched : CronSched) (fromT toT : Int) : Bool :=
  let fromT' := fromT - 1
  let next := nextAfter sched fromT'
  if next = toT then true
  else if toT < next then false
  else true

/-! ## Byte-wise string ordering (the Go `sort.Strings`) -/

/-- Lexicographic comparison of character lists by code point (for UTF-8
encoded strings this coincides with byte-wise comparison). -/
def charListLe : List Char → List Char → Bool
  | [], _ => true
  | _ :: _, [] => false
  | a :: as, b :: bs =>
    if a.toNat < b.toNat then true
    else if b.toNat < a.toNat then false
    else charListLe as bs

/-- Byte-wise string order, as used by the Go `sort.Strings`. -/
def strLe (a b : String) : Bool := charListLe a.data b.data

/-- Strict byte-wise string order. -/
def strLt (a b : String) : Bool := strLe a b && !strLe b a

/-- Ascending byte-wise sort of a list of keys (main.go:190/220,
`sort.Strings`). -/
def sortStrings (l : List String) : List String :=
  List.insertionSort (fun a b => strLe a b = true) l

/-! ## The resource collections and the filter pipeline -/

/-- A CronJob as the filter sees it: metadata namespace/name and the
`spec.schedule` string (plus the suspend flag carried along). -/
structure CronJob where
  ns : String
  name : String
  schedule : String
  suspend : Bool
deriving DecidableEq

/-- A CronWorkflow as the filter sees it. -/
structure CronWorkflow where
  ns : String
  name : String
  schedule : String
  suspend : Bool
deriving DecidableEq

/-- The data carried by the parse-failure error of the filter
(main.go:181/211): the namespace and name of the resource, and the
offending schedule spec. -/
structure ScheduleParseError where
  ns : String
  name : String
  spec : String
deriving DecidableEq

/-- Go map insertion for string-keyed maps: overwrite the entry with the
same key if present, otherwise add the entry. -/
def insertKV {α : Type} (m : List (String × α)) (k : String) (v : α) : List (String × α) :=
  match m with
  | [] => [(k, v)]
  | (k0, v0) :: rest => if k0 = k then (k0, v) :: rest else (k0, v0) :: insertKV rest k v

/-- Go map lookup for string-keyed maps. -/
def lookupKV {α : Type} (m : List (String × α)) (k : String) : Option α :=
  match m with
  | [] => none
  | (k0, v) :: rest => if k0 = k then some v else lookupKV rest k

/-- The per-item loop of the filter (main.go:178-186 / 208-216), generic
over the accessors shared by the two resource shapes: parse the schedule
of each item (aborting on failure with that item as namespace/name/spec),
test inclusion, and collect included items into the keyed map under
`namespace ++ name`. -/
def filterLoop {α : Type} (ns nm sp : α → String) (fromT toT : Int) :
    List α → List (String × α) → Except ScheduleParseError (List (String × α))
  | [], m => .ok m
  | a :: rest, m =>
    match parseStandard (sp a) with
    | none => .error ⟨ns a, nm a, sp a⟩
    | some sched =>
      if isInclude sched fromT toT then
        filterLoop ns nm sp fromT toT rest (insertKV m (ns a ++ nm a) a)
      else
        filterLoop ns nm sp fromT toT rest m

/-- The generic filter pipeline shared verbatim by the two Go functions:
early return on empty input, the per-item loop, then emission in ascending
sorted key order (main.go:170-197 / 200-227). -/
def filterCore {α : Type} (ns nm sp : α → String) (items : List α) (fromT toT : Int) :
    Except ScheduleParseError (List α) :=
  if items.length = 0 then .ok []
  else
    match filterLoop ns nm sp fromT toT items [] with
    | .error e => .error e
    | .ok m =>
      let sortedKeys := sortStrings (m.map Prod.fst)
      .ok (sortedKeys.filterMap (fun k => lookupKV m k))

/-- Extract CronJobs to be executed during the from-to period
(main.go:170-197). -/
def getScheduleIncludedCronJobs (cronjobs : List CronJob) (fromT toT : Int) :
    Except ScheduleParseError (List CronJob) :=
  filterCore CronJob.ns CronJob.name CronJob.schedule cronjobs fromT toT

/-- Extract CronWorkflows to be executed during the from-to period
(main.go:200-227). -/
def getScheduleIncludedCronWorkflows (cronworkflows : List CronWorkflow) (fromT toT : Int) :
    Except ScheduleParseError (List CronWorkflow) :=
  filterCore CronWorkflow.ns CronWorkflow.name CronWorkflow.schedule cronworkflows fromT toT

/-- The identity key of a CronJob: namespace concatenated with name. -/
def jobKey (j : CronJob) : String := j.ns ++ j.name

/-- The identity key of a CronWorkflow: namespace concatenated with name. -/
def wfKey (w : CronWorkflow) : String := w.ns ++ w.name

/-- Whether a schedule spec parses. -/
def parsesOk (sp : String) : Bool := (parseStandard sp).isSome

/-- The per-item inclusion test as the loop performs it: a failing parse
never marks an item included. -/
def includeTest {α : Type} (sp : α → String) (fromT toT : Int) (a : α) : Bool :=
  match parseStandard (sp a) with
  | some sched => isInclude sched fromT toT
  | none => false

/-- The keyed map the loop builds (its success-path accumulator). -/
def buildMap {α : Type} (ns nm sp : α → String) (fromT toT : Int) :
    List α → List (String × α) → List (String × α)
  | [], m => m
  | a :: rest, m =>
    buildMap ns nm sp fromT toT rest
      (if includeTest sp fromT toT a then insertKV m (ns a ++ nm a) a else m)

/-- The window computation of `run` (main.go:90-107): both parsed flag
times are normalized, but line 101 assigns the normalized *from* value to
`to` (`to = from.UTC()`), after which the reversed-times validation
compares `from` with itself. -/
def computeWindow (fromT toT : Int) : Except Unit (Int × Int) :=
  let fromU := fromT
  let toU := fromU
  if toU < fromU then .error () else .ok (fromU, toU)

/-- The earliest occurrence of the schedule strictly after `t` is `n`. -/
def isEarliestOccurrenceAfter (s : CronSched) (t n : Int) : Prop :=
  occursAt s n = true ∧ t < n ∧ ∀ u : Int, t < u → u < n → occursAt s u = false

/-! ## Order theory for the byte-wise string comparison -/

theorem charListLe_total : ∀ as bs : List Char, charListLe as bs = true ∨ charListLe bs as = true
  | [], _ => Or.inl rfl
  | _ :: _, [] => Or.inr rfl
  | a :: as, b :: bs => by
    simp only [charListLe]
    rcases Nat.lt_trichotomy a.toNat b.toNat with h | h | h
    · left; simp [h]
    · have h1 : ¬ a.toNat < b.toNat := by omega
      have h2 : ¬ b.toNat < a.toNat := by omega
      simpa [h1, h2] using charListLe_total as bs
    · right; simp [h]

theorem charListLe_trans : ∀ as bs cs : List Char, charListLe as bs = true →
    charListLe bs cs = true → charListLe as cs = true
  | [], _, _, _, _ => rfl
  | _ :: _, [], _, h1, _ => by simp [charListLe] at h1
  | _ :: _, _ :: _, [], _, h2 => by simp [charListLe] at h2
  | a :: as, b :: bs, c :: cs, h1, h2 => by
    simp only [charListLe] at h1 h2 ⊢
    split_ifs at h1 h2 ⊢ <;> first
      | rfl
      | omega
      | (exact charListLe_trans as bs cs h1 h2)

theorem charListEq_of_le_le : ∀ as bs : List Char, charListLe as bs = true →
    charListLe bs as = true → as = bs
  | [], [], _, _ => rfl
  | [], _ :: _, _, h2 => by simp [charListLe] at h2
  | _ :: _, [], h1, _ => by simp [charListLe] at h1
  | a :: as, b :: bs, h1, h2 => by
    simp only [charListLe] at h1 h2
    rcases Nat.lt_trichotomy a.toNat b.toNat with h | h | h
    · rw [if_neg (by omega : ¬ b.toNat < a.toNat), if_pos h] at h2
      simp at h2
    · have hne1 : ¬ a.toNat < b.toNat := by omega
      have hne2 : ¬ b.toNat < a.toNat := by omega
      rw [if_neg hne1, if_neg hne2] at h1
      rw [if_neg hne2, if_neg hne1] at h2
      refine congrArg₂ List.cons ?_ (charListEq_of_le_le as bs h1 h2)
      apply Char.eq_of_val_eq
      apply UInt32.toNat.inj
      exact h
    · rw [if_neg (by omega : ¬ a.toNat < b.toNat), if_pos h] at h1
      simp at h1

theorem strLe_total (a b : String) : strLe a b = true ∨ strLe b a = true :=
  charListLe_total a.data b.data

theorem strLe_trans {a b c : String} (h1 : strLe a b = true) (h2 : strLe b c = true) :
    strLe a c = true :=
  charListLe_trans a.data b.data c.data h1 h2

theorem strLe_antisymm {a b : String} (h1 : strLe a b = true) (h2 : strLe b a = true) :
    a = b :=
  String.ext (charListEq_of_le_le a.data b.data h1 h2)

instance strLeIsTotal : IsTotal String (fun a b => strLe a b = true) := ⟨strLe_total⟩

instance strLeIsTrans : IsTrans String (fun a b => strLe a b = true) :=
  ⟨fun _ _ _ => strLe_trans⟩

instance strLeIsAntisymm : IsAntisymm String (fun a b => strLe a b = true) :=
  ⟨fun _ _ => strLe_antisymm⟩

theorem strLt_of_strLe_of_ne {a b : String} (h1 : strLe a b = true) (h2 : a ≠ b) :
    strLt a b = true := by
  have hba : strLe b a = false := by
    cases h : strLe b a
    · rfl
    · exact absurd (strLe_antisymm h1 h) h2
  simp [strLt, h1, hba]

theorem sortStrings_sorted (l : List String) :
    (sortStrings l).Pairwise (fun a b => strLe a b = true) :=
  List.sorted_insertionSort (fun a b => strLe a b = true) l

theorem sortStrings_perm (l : List String) : (sortStrings l).Perm l :=
  List.perm_insertionSort (fun a b => strLe a b = true) l

/-! ## The next-occurrence search -/

theorem searchFrom_eq_some (s : CronSched) :
    ∀ (fuel : Nat) (m target : Int), matchesMinute s target = true →
      m ≤ target → target < m + fuel →
      (∀ k : Int, m ≤ k → k < target → matchesMinute s k = false) →
      searchFrom s fuel m = some target
  | 0, m, target, _, h2, h3, _ => by omega
  | fuel + 1, m, target, h1, h2, h3, h4 => by
    simp only [searchFrom]
    rcases eq_or_lt_of_le h2 with he | hlt
    · subst he
      simp [h1]
    · have hm : matchesMinute s m = false := h4 m le_rfl hlt
      rw [hm]
      simp only [Bool.false_eq_true, if_false]
      exact searchFrom_eq_some s fuel (m + 1) target h1 (by omega) (by omega)
        (fun k hk1 hk2 => h4 k (by omega) hk2)

theorem nextAfter_eq_of_earliest {s : CronSched} {t n : Int}
    (h : isEarliestOccurrenceAfter s t n) (hhor : n ≤ t + 60 * (searchFuel : Int)) :
    nextAfter s t = n := by
  obtain ⟨hocc, hgt, hmin⟩ := h
  have hocc' := hocc
  unfold occursAt at hocc'
  simp only [Bool.and_eq_true, beq_iff_eq] at hocc'
  obtain ⟨hdvd, hmatch⟩ := hocc'
  have hfuel : (searchFuel : Int) = 2628000 := rfl
  have hs : searchFrom s searchFuel (t / 60 + 1) = some (n / 60) := by
    refine searchFrom_eq_some s searchFuel (t / 60 + 1) (n / 60) hmatch (by omega) ?_ ?_
    · show n / 60 < t / 60 + 1 + (searchFuel : Int)
      omega
    · intro k hk1 hk2
      have hu := hmin (60 * k) (by omega) (by omega)
      unfold occursAt at hu
      have h60 : (60 * k) % 60 = 0 := by omega
      have hdk : (60 * k) / 60 = k := by omega
      simpa [h60, hdk] using hu
  unfold nextAfter
  rw [hs]
  show n / 60 * 60 = n
  omega

/-! ## Lemmas about the keyed map -/

theorem insertKV_map_fst {α : Type} (m : List (String × α)) (k : String) (v : α) :
    (insertKV m k v).map Prod.fst =
      if k ∈ m.map Prod.fst then m.map Prod.fst else m.map Prod.fst ++ [k] := by
  induction m with
  | nil => simp [insertKV]
  | cons p rest ih =>
    obtain ⟨k0, v0⟩ := p
    by_cases h : k0 = k
    · subst h
      simp [insertKV]
    · simp only [insertKV, if_neg h, List.map_cons]
      rw [ih]
      by_cases hm : k ∈ rest.map Prod.fst
      · simp [hm, Ne.symm h]
      · simp [hm, Ne.symm h]

theorem mem_insertKV_keys {α : Type} {m : List (String × α)} {k k' : String} {v : α} :
    k' ∈ (insertKV m k v).map Prod.fst ↔ k' ∈ m.map Prod.fst ∨ k' = k := by
  rw [insertKV_map_fst]
  by_cases hm : k ∈ m.map Prod.fst
  · rw [if_pos hm]
    constructor
    · exact Or.inl
    · rintro (h | h)
      · exact h
      · exact h ▸ hm
  · rw [if_neg hm]
    simp

theorem insertKV_keys_nodup {α : Type} {m : List (String × α)} {k : String} {v : α}
    (h : (m.map Prod.fst).Nodup) : ((insertKV m k v).map Prod.fst).Nodup := by
  rw [insertKV_map_fst]
  by_cases hm : k ∈ m.map Prod.fst
  · rwa [if_pos hm]
  · rw [if_neg hm]
    refine List.Nodup.append h (List.nodup_singleton k) ?_
    intro a ha hb
    simp only [List.mem_singleton] at hb
    exact hm (hb ▸ ha)

theorem lookupKV_insert_self {α : Type} (m : List (String × α)) (k : String) (v : α) :
    lookupKV (insertKV m k v) k = some v := by
  induction m with
  | nil => simp [insertKV, lookupKV]
  | cons p rest ih =>
    obtain ⟨k0, v0⟩ := p
    by_cases h : k0 = k
    · subst h
      simp [insertKV, lookupKV]
    · simp [insertKV, lookupKV, h, ih]

theorem lookupKV_insert_ne {α : Type} (m : List (String × α)) {k k' : String} (v : α)
    (h : k' ≠ k) : lookupKV (insertKV m k v) k' = lookupKV m k' := by
  induction m with
  | nil =>
    simp only [insertKV, lookupKV]
    rw [if_neg (Ne.symm h)]
  | cons p rest ih =>
    obtain ⟨k0, v0⟩ := p
    by_cases h0 : k0 = k
    · subst h0
      simp only [insertKV, if_pos rfl, lookupKV]
      rw [if_neg (Ne.symm h), if_neg (Ne.symm h)]
    · simp only [insertKV, if_neg h0, lookupKV]
      by_cases h1 : k0 = k'
      · rw [if_pos h1, if_pos h1]
      · rw [if_neg h1, if_neg h1, ih]

theorem lookupKV_isSome_iff {α : Type} (m : List (String × α)) (k : String) :
    (lookupKV m k).isSome = true ↔ k ∈ m.map Prod.fst := by
  induction m with
  | nil => simp [lookupKV]
  | cons p rest ih =>
    obtain ⟨k0, v0⟩ := p
    by_cases h : k0 = k
    · subst h
      simp [lookupKV]
    · simp [lookupKV, h, ih, Ne.symm h]

/-- Every stored value has its own key equal to the key it is stored under. -/
def WellKeyed {α : Type} (keyf : α → String) (m : List (String × α)) : Prop :=
  ∀ p ∈ m, keyf p.2 = p.1

theorem wellKeyed_insertKV {α : Type} {keyf : α → String} {m : List (String × α)}
    {k : String} {v : α} (hm : WellKeyed keyf m) (hv : keyf v = k) :
    WellKeyed keyf (insertKV m k v) := by
  induction m with
  | nil =>
    intro p hp
    simp [insertKV] at hp
    simp [hp, hv]
  | cons q rest ih =>
    obtain ⟨k0, v0⟩ := q
    have hrest : WellKeyed keyf rest := fun p hp => hm p (List.mem_cons_of_mem _ hp)
    by_cases h : k0 = k
    · subst h
      intro p hp
      simp only [insertKV, if_pos rfl] at hp
      rcases List.mem_cons.mp hp with he | he
      · simp [he, hv]
      · exact hm p (List.mem_cons_of_mem _ he)
    · intro p hp
      simp only [insertKV, if_neg h] at hp
      rcases List.mem_cons.mp hp with he | he
      · exact he ▸ hm (k0, v0) (List.mem_cons_self _ _)
      · exact ih hrest p he

theorem lookupKV_wellKeyed {α : Type} {keyf : α → String} {m : List (String × α)}
    {k : String} {v : α} (hm : WellKeyed keyf m) (h : lookupKV m k = some v) :
    keyf v = k := by
  induction m with
  | nil => simp [lookupKV] at h
  | cons p rest ih =>
    obtain ⟨k0, v0⟩ := p
    by_cases h0 : k0 = k
    · subst h0
      simp only [lookupKV] at h
      rw [if_true] at h
      injection h with h
      rw [← h]
      exact hm (k0, v0) (List.mem_cons_self _ _)
    · simp only [lookupKV, if_neg h0] at h
      exact ih (fun q hq => hm q (List.mem_cons_of_mem _ hq)) h

/-! ## Lemmas about the filter loop -/

theorem filterLoop_eq_ok {α : Type} (ns nm sp : α → String) (fromT toT : Int) :
    ∀ (items : List α) (m m' : List (String × α)),
      filterLoop ns nm sp fromT toT items m = .ok m' →
      m' = buildMap ns nm sp fromT toT items m
  | [], m, m', h => by
    simp only [filterLoop] at h
    cases h
    rfl
  | a :: rest, m, m', h => by
    simp only [filterLoop] at h
    split at h
    next => exact Except.noConfusion h
    next sched hp =>
      have hit : includeTest sp fromT toT a = isInclude sched fromT toT := by
        unfold includeTest
        rw [hp]
      simp only [buildMap, hit]
      by_cases hi : isInclude sched fromT toT = true
      · rw [if_pos hi] at h
        rw [if_pos hi]
        exact filterLoop_eq_ok ns nm sp fromT toT rest _ m' h
      · rw [if_neg hi] at h
        rw [if_neg hi]
        exact filterLoop_eq_ok ns nm sp fromT toT rest _ m' h

theorem filterLoop_error_of_find {α : Type} (ns nm sp : α → String) (fromT toT : Int) :
    ∀ (items : List α) (m : List (String × α)) (x : α),
      items.find? (fun a => !parsesOk (sp a)) = some x →
      filterLoop ns nm sp fromT toT items m = .error ⟨ns x, nm x, sp x⟩
  | [], _, _, h => by simp at h
  | a :: rest, m, x, h => by
    simp only [filterLoop]
    split
    next hp =>
      have hbad : (!parsesOk (sp a)) = true := by simp [parsesOk, hp]
      rw [List.find?_cons_of_pos rest hbad] at h
      injection h with h
      rw [← h]
    next sched hp =>
      have hgood : ¬ (!parsesOk (sp a)) = true := by simp [parsesOk, hp]
      rw [List.find?_cons_of_neg rest hgood] at h
      by_cases hi : isInclude sched fromT toT = true
      · rw [if_pos hi]
        exact filterLoop_error_of_find ns nm sp fromT toT rest _ x h
      · rw [if_neg hi]
        exact filterLoop_error_of_find ns nm sp fromT toT rest _ x h

theorem lookupKV_buildMap {α : Type} (ns nm sp : α → String) (fromT toT : Int) :
    ∀ (items : List α) (m : List (String × α)) (k : String),
      lookupKV (buildMap ns nm sp fromT toT items m) k =
        ((items.filter (includeTest sp fromT toT)).reverse.find?
            (fun a => ns a ++ nm a == k)).or (lookupKV m k)
  | [], m, k => by simp [buildMap, Option.or]
  | a :: rest, m, k => by
    simp only [buildMap, List.filter_cons]
    by_cases hi : includeTest sp fromT toT a = true
    · rw [if_pos hi, if_pos hi]
      rw [lookupKV_buildMap ns nm sp fromT toT rest _ k]
      rw [List.reverse_cons, List.find?_append]
      cases hfind : (rest.filter (includeTest sp fromT toT)).reverse.find?
          (fun b => ns b ++ nm b == k) with
      | some b => simp [Option.or]
      | none =>
        simp only [Option.or]
        by_cases hk : ns a ++ nm a = k
        · subst hk
          rw [lookupKV_insert_self]
          simp [List.find?]
        · rw [lookupKV_insert_ne m a (fun he => hk he.symm)]
          have : (ns a ++ nm a == k) = false := by simp [hk]
          simp [List.find?, this]
    · rw [if_neg hi, if_neg hi]
      exact lookupKV_buildMap ns nm sp fromT toT rest m k

theorem buildMap_keys_nodup {α : Type} (ns nm sp : α → String) (fromT toT : Int) :
    ∀ (items : List α) (m : List (String × α)), (m.map Prod.fst).Nodup →
      ((buildMap ns nm sp fromT toT items m).map Prod.fst).Nodup
  | [], _, h => h
  | a :: rest, m, h => by
    simp only [buildMap]
    by_cases hi : includeTest sp fromT toT a = true
    · rw [if_pos hi]
      exact buildMap_keys_nodup ns nm sp fromT toT rest _ (insertKV_keys_nodup h)
    · rw [if_neg hi]
      exact buildMap_keys_nodup ns nm sp fromT toT rest m h

theorem mem_buildMap_keys {α : Type} (ns nm sp : α → String) (fromT toT : Int) :
    ∀ (items : List α) (m : List (String × α)) (k : String),
      (k ∈ (buildMap ns nm sp fromT toT items m).map Prod.fst ↔
        k ∈ m.map Prod.fst ∨
          ∃ a ∈ items, includeTest sp fromT toT a = true ∧ ns a ++ nm a = k)
  | [], m, k => by simp [buildMap]
  | a :: rest, m, k => by
    simp only [buildMap]
    by_cases hi : includeTest sp fromT toT a = true
    · rw [if_pos hi]
      rw [mem_buildMap_keys ns nm sp fromT toT rest _ k]
      constructor
      · rintro (hm | hex)
        · rcases mem_insertKV_keys.mp hm with hm' | hk
          · exact Or.inl hm'
          · exact Or.inr ⟨a, List.mem_cons_self _ _, hi, hk.symm⟩
        · obtain ⟨b, hb, hbi, hbk⟩ := hex
          exact Or.inr ⟨b, List.mem_cons_of_mem _ hb, hbi, hbk⟩
      · rintro (hm | hex)
        · exact Or.inl (mem_insertKV_keys.mpr (Or.inl hm))
        · obtain ⟨b, hb, hbi, hbk⟩ := hex
          rcases List.mem_cons.mp hb with he | he
          · subst he
            exact Or.inl (mem_insertKV_keys.mpr (Or.inr hbk.symm))
          · exact Or.inr ⟨b, he, hbi, hbk⟩
    · rw [if_neg hi]
      rw [mem_buildMap_keys ns nm sp fromT toT rest m k]
      constructor
      · rintro (hm | hex)
        · exact Or.inl hm
        · obtain ⟨b, hb, hbi, hbk⟩ := hex
          exact Or.inr ⟨b, List.mem_cons_of_mem _ hb, hbi, hbk⟩
      · rintro (hm | hex)
        · exact Or.inl hm
        · obtain ⟨b, hb, hbi, hbk⟩ := hex
          rcases List.mem_cons.mp hb with he | he
          · subst he
            exact absurd hbi hi
          · exact Or.inr ⟨b, he, hbi, hbk⟩

theorem wellKeyed_buildMap {α : Type} (ns nm sp : α → String) (fromT toT : Int) :
    ∀ (items : List α) (m : List (String × α)),
      WellKeyed (fun a => ns a ++ nm a) m →
      WellKeyed (fun a => ns a ++ nm a) (buildMap ns nm sp fromT toT items m)
  | [], _, h => h
  | a :: rest, m, h => by
    simp only [buildMap]
    by_cases hi : includeTest sp fromT toT a = true
    · rw [if_pos hi]
      exact wellKeyed_buildMap ns nm sp fromT toT rest _ (wellKeyed_insertKV h rfl)
    · rw [if_neg hi]
      exact wellKeyed_buildMap ns nm sp fromT toT rest m h

/-! ## Lemmas about the filter pipeline -/

theorem filterCore_nil {α : Type} (ns nm sp : α → String) (fromT toT : Int) :
    filterCore ns nm sp [] fromT toT = .ok [] := rfl

theorem filterCore_error {α : Type} (ns nm sp : α → String) (items : List α)
    (fromT toT : Int) (x : α)
    (h : items.find? (fun a => !parsesOk (sp a)) = some x) :
    filterCore ns nm sp items fromT toT = .error ⟨ns x, nm x, sp x⟩ := by
  have hne : items ≠ [] := by
    intro he
    subst he
    simp at h
  unfold filterCore
  rw [if_neg (fun hl => hne (List.length_eq_zero.mp hl))]
  rw [filterLoop_error_of_find ns nm sp fromT toT items [] x h]

theorem filterCore_ok_eq {α : Type} (ns nm sp : α → String) (items : List α)
    (fromT toT : Int) (r : List α)
    (h : filterCore ns nm sp items fromT toT = .ok r) :
    r = (sortStrings ((buildMap ns nm sp fromT toT items []).map Prod.fst)).filterMap
          (fun k => lookupKV (buildMap ns nm sp fromT toT items []) k) := by
  by_cases hne : items = []
  · subst hne
    have h' : Except.ok ([] : List α) = (Except.ok r : Except ScheduleParseError (List α)) := h
    injection h' with h'
    rw [← h']
    rfl
  · unfold filterCore at h
    rw [if_neg (fun hl => hne (List.length_eq_zero.mp hl))] at h
    split at h
    next e heq => exact Except.noConfusion h
    next m heq =>
      have hm := filterLoop_eq_ok ns nm sp fromT toT items [] m heq
      have h' : Except.ok ((sortStrings (m.map Prod.fst)).filterMap
          (fun k => lookupKV m k)) = (Except.ok r : Except ScheduleParseError (List α)) := h
      injection h' with h'
      rw [← h', hm]

theorem filterMap_lookup_map_keys {α : Type} (keyf : α → String) (m : List (String × α)) :
    ∀ l : List String, (∀ k ∈ l, k ∈ m.map Prod.fst) → WellKeyed keyf m →
      (l.filterMap (fun k => lookupKV m k)).map keyf = l
  | [], _, _ => rfl
  | k :: rest, hall, hwk => by
    have hk : k ∈ m.map Prod.fst := hall k (List.mem_cons_self _ _)
    obtain ⟨v, hv⟩ := Option.isSome_iff_exists.mp ((lookupKV_isSome_iff m k).mpr hk)
    rw [List.filterMap_cons_some hv, List.map_cons, lookupKV_wellKeyed hwk hv,
      filterMap_lookup_map_keys keyf m rest
        (fun x hx => hall x (List.mem_cons_of_mem _ hx)) hwk]

theorem filter_key_of_not_mem {α : Type} (keyf : α → String) (m : List (String × α))
    (k : String) :
    ∀ l : List String, k ∉ l → WellKeyed keyf m →
      (l.filterMap (fun x => lookupKV m x)).filter (fun a => keyf a == k) = []
  | [], _, _ => rfl
  | k0 :: rest, hk, hwk => by
    have hrest := filter_key_of_not_mem keyf m k rest
      (fun h => hk (List.mem_cons_of_mem _ h)) hwk
    cases hv0 : lookupKV m k0 with
    | none => rw [List.filterMap_cons_none hv0, hrest]
    | some v0 =>
      rw [List.filterMap_cons_some hv0]
      have hne : ¬ (keyf v0 == k) = true := by
        rw [lookupKV_wellKeyed hwk hv0, beq_iff_eq]
        intro he
        refine hk ?_
        rw [← he]
        exact List.mem_cons_self _ _
      rw [@List.filter_cons_of_neg _ (fun a => keyf a == k) v0 _ hne, hrest]

theorem filter_key_singleton {α : Type} (keyf : α → String) (m : List (String × α))
    {k : String} {v : α} :
    ∀ l : List String, l.Nodup → (∀ x ∈ l, x ∈ m.map Prod.fst) → WellKeyed keyf m →
      k ∈ l → lookupKV m k = some v →
      (l.filterMap (fun x => lookupKV m x)).filter (fun a => keyf a == k) = [v]
  | [], _, _, _, hk, _ => absurd hk (List.not_mem_nil k)
  | k0 :: rest, hnd, hall, hwk, hk, hv => by
    have hk0 : k0 ∈ m.map Prod.fst := hall k0 (List.mem_cons_self _ _)
    obtain ⟨v0, hv0⟩ := Option.isSome_iff_exists.mp ((lookupKV_isSome_iff m k0).mpr hk0)
    rw [List.filterMap_cons_some hv0]
    rcases List.mem_cons.mp hk with he | he
    · subst he
      rw [hv] at hv0
      injection hv0 with hv0
      subst hv0
      have hpos : (keyf v == k) = true := by
        simp only [beq_iff_eq]
        exact lookupKV_wellKeyed hwk hv
      rw [@List.filter_cons_of_pos _ (fun a => keyf a == k) v _ hpos]
      rw [filter_key_of_not_mem keyf m k rest (List.Nodup.not_mem hnd) hwk]
    · have hkne : k0 ≠ k := by
        intro he0
        subst he0
        exact List.Nodup.not_mem hnd he
      have hneg : ¬ (keyf v0 == k) = true := by
        rw [lookupKV_wellKeyed hwk hv0, beq_iff_eq]
        exact hkne
      rw [@List.filter_cons_of_neg _ (fun a => keyf a == k) v0 _ hneg]
      exact filter_key_singleton keyf m rest (List.Nodup.of_cons hnd)
        (fun x hx => hall x (List.mem_cons_of_mem _ hx)) hwk he hv

theorem filterCore_ok_map_keys {α : Type} (ns nm sp : α → String) (items : List α)
    (fromT toT : Int) (r : List α)
    (h : filterCore ns nm sp items fromT toT = .ok r) :
    r.map (fun a => ns a ++ nm a) =
      sortStrings ((buildMap ns nm sp fromT toT items []).map Prod.fst) := by
  rw [filterCore_ok_eq ns nm sp items fromT toT r h]
  apply filterMap_lookup_map_keys
  · intro k hk
    exact (sortStrings_perm _).mem_iff.mp hk
  · exact wellKeyed_buildMap ns nm sp fromT toT items []
      (fun p hp => absurd hp (List.not_mem_nil p))

theorem filterCore_ok_sorted {α : Type} (ns nm sp : α → String) (items : List α)
    (fromT toT : Int) (r : List α)
    (h : filterCore ns nm sp items fromT toT = .ok r) :
    (r.map (fun a => ns a ++ nm a)).Pairwise (fun a b => strLt a b = true) := by
  rw [filterCore_ok_map_keys ns nm sp items fromT toT r h]
  have hnd : ((buildMap ns nm sp fromT toT items []).map Prod.fst).Nodup :=
    buildMap_keys_nodup ns nm sp fromT toT items [] (by simp)
  have hnd2 : (sortStrings ((buildMap ns nm sp fromT toT items []).map Prod.fst)).Nodup :=
    (sortStrings_perm _).nodup_iff.mpr hnd
  exact (sortStrings_sorted _).imp₂ (fun _ _ hle hne => strLt_of_strLe_of_ne hle hne) hnd2

theorem filterCore_keys_ext {α : Type} (ns nm sp : α → String)
    (items1 items2 : List α) (fromT1 toT1 fromT2 toT2 : Int) (r1 r2 : List α)
    (h1 : filterCore ns nm sp items1 fromT1 toT1 = .ok r1)
    (h2 : filterCore ns nm sp items2 fromT2 toT2 = .ok r2)
    (hmem : ∀ k, k ∈ r1.map (fun a => ns a ++ nm a) ↔ k ∈ r2.map (fun a => ns a ++ nm a)) :
    r1.map (fun a => ns a ++ nm a) = r2.map (fun a => ns a ++ nm a) := by
  have hk1 := filterCore_ok_map_keys ns nm sp items1 fromT1 toT1 r1 h1
  have hk2 := filterCore_ok_map_keys ns nm sp items2 fromT2 toT2 r2 h2
  rw [hk1, hk2] at hmem ⊢
  have hnd1 : (sortStrings ((buildMap ns nm sp fromT1 toT1 items1 []).map Prod.fst)).Nodup :=
    (sortStrings_perm _).nodup_iff.mpr
      (buildMap_keys_nodup ns nm sp fromT1 toT1 items1 [] (by simp))
  have hnd2 : (sortStrings ((buildMap ns nm sp fromT2 toT2 items2 []).map Prod.fst)).Nodup :=
    (sortStrings_perm _).nodup_iff.mpr
      (buildMap_keys_nodup ns nm sp fromT2 toT2 items2 [] (by simp))
  have hperm := (List.perm_ext_iff_of_nodup hnd1 hnd2).mpr hmem
  exact List.eq_of_perm_of_sorted hperm (sortStrings_sorted _) (sortStrings_sorted _)

theorem filterCore_filter_key {α : Type} (ns nm sp : α → String) (items : List α)
    (fromT toT : Int) (r : List α) (k : String) (x : α)
    (h : filterCore ns nm sp items fromT toT = .ok r)
    (hfind : (items.filter (includeTest sp fromT toT)).reverse.find?
        (fun a => ns a ++ nm a == k) = some x) :
    r.filter (fun a => ns a ++ nm a == k) = [x] := by
  rw [filterCore_ok_eq ns nm sp items fromT toT r h]
  have hwk : WellKeyed (fun a => ns a ++ nm a) (buildMap ns nm sp fromT toT items []) :=
    wellKeyed_buildMap ns nm sp fromT toT items []
      (fun p hp => absurd hp (List.not_mem_nil p))
  have hlk : lookupKV (buildMap ns nm sp fromT toT items []) k = some x := by
    rw [lookupKV_buildMap ns nm sp fromT toT items [] k, hfind]
    rfl
  have hkm : k ∈ (buildMap ns nm sp fromT toT items []).map Prod.fst :=
    (lookupKV_isSome_iff _ k).mp (by rw [hlk]; rfl)
  refine filter_key_singleton (fun a => ns a ++ nm a) (buildMap ns nm sp fromT toT items [])
    (sortStrings ((buildMap ns nm sp fromT toT items []).map Prod.fst)) ?_ ?_ hwk ?_ hlk
  · exact (sortStrings_perm _).nodup_iff.mpr
      (buildMap_keys_nodup ns nm sp fromT toT items [] (by simp))
  · intro y hy
    exact (sortStrings_perm _).mem_iff.mp hy
  · exact (sortStrings_perm _).mem_iff.mpr hkm

theorem filterLoop_ok_of_parses {α : Type} (ns nm sp : α → String) (fromT toT : Int) :
    ∀ (items : List α) (m : List (String × α)),
      (∀ a ∈ items, parsesOk (sp a) = true) →
      filterLoop ns nm sp fromT toT items m = .ok (buildMap ns nm sp fromT toT items m)
  | [], _, _ => rfl
  | a :: rest, m, hall => by
    have hpa : parsesOk (sp a) = true := hall a (List.mem_cons_self _ _)
    have hrest : ∀ b ∈ rest, parsesOk (sp b) = true :=
      fun b hb => hall b (List.mem_cons_of_mem _ hb)
    simp only [filterLoop]
    split
    next hp0 =>
      rw [parsesOk, hp0] at hpa
      exact Bool.noConfusion hpa
    next sched hp0 =>
      have hit : includeTest sp fromT toT a = isInclude sched fromT toT := by
        unfold includeTest
        rw [hp0]
      simp only [buildMap, hit]
      by_cases hi : isInclude sched fromT toT = true
      · rw [if_pos hi, if_pos hi]
        exact filterLoop_ok_of_parses ns nm sp fromT toT rest _ hrest
      · rw [if_neg hi, if_neg hi]
        exact filterLoop_ok_of_parses ns nm sp fromT toT rest _ hrest

theorem buildMap_eq_of_none_included {α : Type} (ns nm sp : α → String) (fromT toT : Int) :
    ∀ (items : List α) (m : List (String × α)),
      (∀ a ∈ items, includeTest sp fromT toT a = false) →
      buildMap ns nm sp fromT toT items m = m
  | [], _, _ => rfl
  | a :: rest, m, hall => by
    have ha : includeTest sp fromT toT a = false := hall a (List.mem_cons_self _ _)
    simp only [buildMap, ha]
    rw [if_neg (by simp)]
    exact buildMap_eq_of_none_included ns nm sp fromT toT rest m
      (fun b hb => hall b (List.mem_cons_of_mem _ hb))

theorem filterCore_ok_empty_of_none_included {α : Type} (ns nm sp : α → String)
    (items : List α) (fromT toT : Int)
    (hparse : ∀ a ∈ items, parsesOk (sp a) = true)
    (hnone : ∀ a ∈ items, includeTest sp fromT toT a = false) :
    filterCore ns nm sp items fromT toT = .ok [] := by
  by_cases hne : items = []
  · subst hne
    rfl
  · unfold filterCore
    rw [if_neg (fun hl => hne (List.length_eq_zero.mp hl))]
    rw [filterLoop_ok_of_parses ns nm sp fromT toT items [] hparse]
    rw [buildMap_eq_of_none_included ns nm sp fromT toT items [] hnone]
    rfl

/-! ## Deciding the earliest-occurrence property on concrete inputs -/

instance earliestOccurrenceDecidable (s : CronSched) (t n : Int) :
    Decidable (isEarliestOccurrenceAfter s t n) :=
  decidable_of_iff
    (occursAt s n = true ∧ t < n ∧
      ∀ i : Nat, i < (n - t - 1).toNat → occursAt s (t + 1 + i) = false)
    (by
      constructor
      · rintro ⟨h1, h2, h3⟩
        refine ⟨h1, h2, ?_⟩
        intro u hu1 hu2
        have he : u = t + 1 + ((u - t - 1).toNat : Int) := by omega
        rw [he]
        exact h3 (u - t - 1).toNat (by omega)
      · rintro ⟨h1, h2, h3⟩
        refine ⟨h1, h2, ?_⟩
        intro i hi
        exact h3 (t + 1 + i) (by omega) (by omega))

/-! ## Concrete schedules used as witnesses -/

/-- The parsed form of "* * * * *": fires every minute. -/
def schedEveryMin : CronSched :=
  ⟨⟨true, rangeStep 0 59 1⟩, ⟨true, rangeStep 0 23 1⟩, ⟨true, rangeStep 1 31 1⟩,
   ⟨true, rangeStep 1 12 1⟩, ⟨true, rangeStep 0 6 1⟩⟩

/-- The parsed form of "1,59 * * * *": fires one minute after and one
minute before every whole hour, never on it. -/
def schedOffMin : CronSched :=
  ⟨⟨false, [1, 59]⟩, ⟨true, rangeStep 0 23 1⟩, ⟨true, rangeStep 1 31 1⟩,
   ⟨true, rangeStep 1 12 1⟩, ⟨true, rangeStep 0 6 1⟩⟩

/-- The parsed form of "0 2 * * *": fires daily at 02:00. -/
def schedTwoAM : CronSched :=
  ⟨⟨false, [0]⟩, ⟨false, [2]⟩, ⟨true, rangeStep 1 31 1⟩, ⟨true, rangeStep 1 12 1⟩,
   ⟨true, rangeStep 0 6 1⟩⟩

/-! ## The claims -/

/-- C1: for every parsed schedule and window [from, to], `isInclude`
returns true iff the earliest occurrence `n` of the schedule strictly after
from - 1s satisfies `n ≤ to` — so occurrences exactly at `from` and
exactly at `to` are included, and the predicate is false when the next
occurrence is strictly after `to`.  (Stated for a next occurrence within
the five-year search horizon of the underlying cron library.) -/
theorem isInclude_iff_next_occurrence_le (s : CronSched) (fromT toT n : Int)
    (hn : isEarliestOccurrenceAfter s (fromT - 1) n)
    (hhor : n ≤ (fromT - 1) + 60 * (searchFuel : Int)) :
    isInclude s fromT toT = true ↔ n ≤ toT := by
  have hnext : nextAfter s (fromT - 1) = n := nextAfter_eq_of_earliest hn hhor
  simp only [isInclude, hnext]
  by_cases he : n = toT
  · simp [he]
  · rw [if_neg he]
    by_cases hgt : toT < n
    · rw [if_pos hgt]
      constructor
      · intro hx
        exact Bool.noConfusion hx
      · intro hx
        omega
    · rw [if_neg hgt]
      exact ⟨fun _ => by omega, fun _ => rfl⟩

/-- Witness for C1: the every-minute schedule against the test window,
whose earliest occurrence after from - 1s is `from` itself. -/
theorem isInclude_iff_next_occurrence_le_witness :
    isInclude schedEveryMin 1674518400 1674522000 = true ↔
      (1674518400 : Int) ≤ 1674522000 :=
  isInclude_iff_next_occurrence_le schedEveryMin 1674518400 1674522000 1674518400
    (by decide) (by decide)

/-- C2: if the schedule spec of any resource fails to parse, the filter
aborts the whole call with an error carrying the namespace, name and
offending spec (the first offender in iteration order), and returns no
result sequence. -/
theorem parse_failure_aborts_filter :
    (∀ (jobs : List CronJob) (fromT toT : Int) (j : CronJob),
        jobs.find? (fun a => !parsesOk a.schedule) = some j →
        getScheduleIncludedCronJobs jobs fromT toT = .error ⟨j.ns, j.name, j.schedule⟩)
    ∧ (∀ (wfs : List CronWorkflow) (fromT toT : Int) (w : CronWorkflow),
        wfs.find? (fun a => !parsesOk a.schedule) = some w →
        getScheduleIncludedCronWorkflows wfs fromT toT = .error ⟨w.ns, w.name, w.schedule⟩) := by
  constructor
  · intro jobs fromT toT j h
    exact filterCore_error CronJob.ns CronJob.name CronJob.schedule jobs fromT toT j h
  · intro wfs fromT toT w h
    exact filterCore_error CronWorkflow.ns CronWorkflow.name CronWorkflow.schedule wfs fromT toT w h

/-- Witness for C2: a malformed spec in second position aborts the CronJob
filter naming that resource; an out-of-range minute aborts the
CronWorkflow filter. -/
theorem parse_failure_aborts_filter_witness :
    getScheduleIncludedCronJobs
        [⟨"ns-a", "good", "* * * * *", false⟩, ⟨"ns-b", "bad", "xxx", false⟩]
        1674518400 1674522000
      = .error ⟨"ns-b", "bad", "xxx"⟩
    ∧ getScheduleIncludedCronWorkflows
        [⟨"ns-w", "broken", "61 0 * * *", false⟩] 1674518400 1674522000
      = .error ⟨"ns-w", "broken", "61 0 * * *"⟩ :=
  ⟨parse_failure_aborts_filter.1
      [⟨"ns-a", "good", "* * * * *", false⟩, ⟨"ns-b", "bad", "xxx", false⟩]
      1674518400 1674522000 ⟨"ns-b", "bad", "xxx", false⟩ (by decide),
   parse_failure_aborts_filter.2
      [⟨"ns-w", "broken", "61 0 * * *", false⟩]
      1674518400 1674522000 ⟨"ns-w", "broken", "61 0 * * *", false⟩ (by decide)⟩

/-- C3: on success the filter's output is sorted strictly ascending by
identity key (namespace ++ name); the output key sequence is a function
only of the set of keys present (two successful runs whose outputs carry
the same key sets emit identical key sequences); and the filter is
deterministic: re-running it on the same input and window yields an
identical result.  Both for CronJobs and for CronWorkflows. -/
theorem filter_output_sorted_deterministic :
    (∀ (jobs : List CronJob) (fromT toT : Int) (r : List CronJob),
        getScheduleIncludedCronJobs jobs fromT toT = .ok r →
        (r.map jobKey).Pairwise (fun a b => strLt a b = true))
    ∧ (∀ (jobs1 jobs2 : List CronJob) (fromT toT : Int) (r1 r2 : List CronJob),
        getScheduleIncludedCronJobs jobs1 fromT toT = .ok r1 →
        getScheduleIncludedCronJobs jobs2 fromT toT = .ok r2 →
        (∀ k, k ∈ r1.map jobKey ↔ k ∈ r2.map jobKey) →
        r1.map jobKey = r2.map jobKey)
    ∧ (∀ (jobs : List CronJob) (fromT toT : Int),
        getScheduleIncludedCronJobs jobs fromT toT = getScheduleIncludedCronJobs jobs fromT toT)
    ∧ (∀ (wfs : List CronWorkflow) (fromT toT : Int) (r : List CronWorkflow),
        getScheduleIncludedCronWorkflows wfs fromT toT = .ok r →
        (r.map wfKey).Pairwise (fun a b => strLt a b = true))
    ∧ (∀ (wfs1 wfs2 : List CronWorkflow) (fromT toT : Int) (r1 r2 : List CronWorkflow),
        getScheduleIncludedCronWorkflows wfs1 fromT toT = .ok r1 →
        getScheduleIncludedCronWorkflows wfs2 fromT toT = .ok r2 →
        (∀ k, k ∈ r1.map wfKey ↔ k ∈ r2.map wfKey) →
        r1.map wfKey = r2.map wfKey)
    ∧ (∀ (wfs : List CronWorkflow) (fromT toT : Int),
        getScheduleIncludedCronWorkflows wfs fromT toT =
          getScheduleIncludedCronWorkflows wfs fromT toT) := by
  refine ⟨?_, ?_, fun _ _ _ => rfl, ?_, ?_, fun _ _ _ => rfl⟩
  · intro jobs fromT toT r h
    exact filterCore_ok_sorted CronJob.ns CronJob.name CronJob.schedule jobs fromT toT r h
  · intro jobs1 jobs2 fromT toT r1 r2 h1 h2 hmem
    exact filterCore_keys_ext CronJob.ns CronJob.name CronJob.schedule jobs1 jobs2
      fromT toT fromT toT r1 r2 h1 h2 hmem
  · intro wfs fromT toT r h
    exact filterCore_ok_sorted CronWorkflow.ns CronWorkflow.name CronWorkflow.schedule
      wfs fromT toT r h
  · intro wfs1 wfs2 fromT toT r1 r2 h1 h2 hmem
    exact filterCore_keys_ext CronWorkflow.ns CronWorkflow.name CronWorkflow.schedule
      wfs1 wfs2 fromT toT fromT toT r1 r2 h1 h2 hmem

set_option maxRecDepth 8000 in
/-- Witness for C3 on the README scenario and a permutation of it. -/
theorem filter_output_sorted_deterministic_witness :
    (([⟨"ns-a", "n-1", "*/5 0 * * *", false⟩, ⟨"ns-a", "n-4", "0-30 * * * *", false⟩,
       ⟨"ns-b", "n-3", "0 1 * * *", false⟩] : List CronJob).map jobKey).Pairwise
        (fun a b => strLt a b = true)
    ∧ ([⟨"ns-a", "n-1", "*/5 0 * * *", false⟩, ⟨"ns-a", "n-4", "0-30 * * * *", false⟩,
        ⟨"ns-b", "n-3", "0 1 * * *", false⟩] : List CronJob).map jobKey =
      ([⟨"ns-a", "n-1", "*/5 0 * * *", false⟩, ⟨"ns-a", "n-4", "0-30 * * * *", false⟩,
        ⟨"ns-b", "n-3", "0 1 * * *", false⟩] : List CronJob).map jobKey
    ∧ (([⟨"ns-w", "w-1", "* * * * *", false⟩] : List CronWorkflow).map wfKey).Pairwise
        (fun a b => strLt a b = true) :=
  ⟨filter_output_sorted_deterministic.1
      [⟨"ns-b", "n-3", "0 1 * * *", false⟩, ⟨"ns-a", "n-1", "*/5 0 * * *", false⟩,
       ⟨"ns-b", "n-2", "0 2 * * *", false⟩, ⟨"ns-a", "n-4", "0-30 * * * *", false⟩]
      1674518400 1674522000 _ (by rfl),
   filter_output_sorted_deterministic.2.1
      [⟨"ns-b", "n-3", "0 1 * * *", false⟩, ⟨"ns-a", "n-1", "*/5 0 * * *", false⟩,
       ⟨"ns-b", "n-2", "0 2 * * *", false⟩, ⟨"ns-a", "n-4", "0-30 * * * *", false⟩]
      [⟨"ns-a", "n-4", "0-30 * * * *", false⟩, ⟨"ns-b", "n-2", "0 2 * * *", false⟩,
       ⟨"ns-b", "n-3", "0 1 * * *", false⟩, ⟨"ns-a", "n-1", "*/5 0 * * *", false⟩]
      1674518400 1674522000 _ _ (by rfl) (by rfl) (fun k => Iff.rfl),
   filter_output_sorted_deterministic.2.2.2.1
      [⟨"ns-w", "w-1", "* * * * *", false⟩] 1674518400 1674522000 _ (by rfl)⟩

/-- C4: when several included resources share one identity key, the
successful output contains exactly one item under that key, namely the
last included item in input iteration order (last-write-wins).  Both for
CronJobs and for CronWorkflows. -/
theorem filter_dedup_last_write_wins :
    (∀ (jobs : List CronJob) (fromT toT : Int) (r : List CronJob) (k : String) (j : CronJob),
        getScheduleIncludedCronJobs jobs fromT toT = .ok r →
        (jobs.filter (includeTest CronJob.schedule fromT toT)).reverse.find?
            (fun a => jobKey a == k) = some j →
        r.filter (fun a => jobKey a == k) = [j])
    ∧ (∀ (wfs : List CronWorkflow) (fromT toT : Int) (r : List CronWorkflow) (k : String)
          (w : CronWorkflow),
        getScheduleIncludedCronWorkflows wfs fromT toT = .ok r →
        (wfs.filter (includeTest CronWorkflow.schedule fromT toT)).reverse.find?
            (fun a => wfKey a == k) = some w →
        r.filter (fun a => wfKey a == k) = [w]) := by
  constructor
  · intro jobs fromT toT r k j h hfind
    exact filterCore_filter_key CronJob.ns CronJob.name CronJob.schedule jobs fromT toT
      r k j h hfind
  · intro wfs fromT toT r k w h hfind
    exact filterCore_filter_key CronWorkflow.ns CronWorkflow.name CronWorkflow.schedule
      wfs fromT toT r k w h hfind

set_option maxRecDepth 8000 in
/-- Witness for C4: two included CronJobs (and CronWorkflows) sharing key
"nsn"; the later one is the single survivor. -/
theorem filter_dedup_last_write_wins_witness :
    ([⟨"ns", "n", "0-30 * * * *", false⟩] : List CronJob).filter
        (fun a => jobKey a == "nsn") = [⟨"ns", "n", "0-30 * * * *", false⟩]
    ∧ ([⟨"ns", "n", "0-30 * * * *", true⟩] : List CronWorkflow).filter
        (fun a => wfKey a == "nsn") = [⟨"ns", "n", "0-30 * * * *", true⟩] :=
  ⟨filter_dedup_last_write_wins.1
      [⟨"ns", "n", "* * * * *", false⟩, ⟨"ns", "n", "0-30 * * * *", false⟩]
      1674518400 1674522000 _ "nsn" ⟨"ns", "n", "0-30 * * * *", false⟩
      (by rfl) (by rfl),
   filter_dedup_last_write_wins.2
      [⟨"ns", "n", "* * * * *", true⟩, ⟨"ns", "n", "0-30 * * * *", true⟩]
      1674518400 1674522000 _ "nsn" ⟨"ns", "n", "0-30 * * * *", true⟩
      (by rfl) (by rfl)⟩

set_option maxRecDepth 8000 in
/-- C5: the README/test scenario: four CronJobs against the window
[2023-01-24T00:00:00Z, 2023-01-24T01:00:00Z] yield exactly
[(ns-a,n-1), (ns-a,n-4), (ns-b,n-3)] in that order; (ns-b,n-2) is
excluded because its occurrence at 02:00 falls outside the window. -/
theorem filter_concrete_scenario :
    getScheduleIncludedCronJobs
      [⟨"ns-b", "n-3", "0 1 * * *", false⟩, ⟨"ns-a", "n-1", "*/5 0 * * *", false⟩,
       ⟨"ns-b", "n-2", "0 2 * * *", false⟩, ⟨"ns-a", "n-4", "0-30 * * * *", false⟩]
      1674518400 1674522000
    = .ok [⟨"ns-a", "n-1", "*/5 0 * * *", false⟩, ⟨"ns-a", "n-4", "0-30 * * * *", false⟩,
           ⟨"ns-b", "n-3", "0 1 * * *", false⟩] := rfl

/-- C6 (code bug): the window computation of `run` copies the parsed
`from` value into `to` (main.go:101 reads `to = from.UTC()` instead of
`to = to.UTC()`), so the reversed-times validation at main.go:105 compares
`from` with itself: for all inputs, including `from > to`, `run` never
returns the reversed-times error and proceeds with the degenerate window
[from, from]. -/
theorem computeWindow_never_rejects_reversed (fromT toT : Int) :
    computeWindow fromT toT = .ok (fromT, fromT) := by
  simp only [computeWindow]
  rw [if_neg (lt_irrefl fromT)]

/-- C7: for a point window [f, f], a schedule firing exactly at f is
included, and a schedule whose earliest occurrence after f - 1s is some
`n ≠ f` (for instance one firing one minute before and one minute after f
but not at f) is excluded. -/
theorem isInclude_point_window (s : CronSched) (mf n : Int) :
    (matchesMinute s mf = true → isInclude s (60 * mf) (60 * mf) = true)
    ∧ (isEarliestOccurrenceAfter s (60 * mf - 1) n → n ≠ 60 * mf →
        n ≤ (60 * mf - 1) + 60 * (searchFuel : Int) →
        isInclude s (60 * mf) (60 * mf) = false) := by
  constructor
  · intro hmatch
    have hfuel : ((searchFuel : Nat) : Int) = 2628000 := rfl
    have hs : searchFrom s searchFuel ((60 * mf - 1) / 60 + 1) = some mf :=
      searchFrom_eq_some s searchFuel ((60 * mf - 1) / 60 + 1) mf hmatch
        (by omega) (by omega) (fun k hk1 hk2 => by omega)
    have hnext : nextAfter s (60 * mf - 1) = 60 * mf := by
      unfold nextAfter
      rw [hs]
      show mf * 60 = 60 * mf
      omega
    simp [isInclude, hnext]
  · intro hn hne hhor
    have hnext : nextAfter s (60 * mf - 1) = n := nextAfter_eq_of_earliest hn hhor
    have hgt : 60 * mf < n := by
      obtain ⟨_, h2, _⟩ := hn
      omega
    simp only [isInclude, hnext]
    rw [if_neg hne, if_pos hgt]

/-- Witness for C7: the every-minute schedule fires at the instant and is
included; the "1,59 * * * *" schedule fires one minute before and one
minute after the point window 2023-01-24T00:00:00Z but not at it, and is
excluded. -/
theorem isInclude_point_window_witness :
    isInclude schedEveryMin 1674518400 1674518400 = true
    ∧ isInclude schedOffMin 1674518400 1674518400 = false
    ∧ occursAt schedOffMin (1674518400 - 60) = true
    ∧ occursAt schedOffMin (1674518400 + 60) = true :=
  ⟨(isInclude_point_window schedEveryMin 27908640 0).1 (by decide),
   (isInclude_point_window schedOffMin 27908640 1674518460).2
      (by decide) (by decide) (by decide),
   by decide, by decide⟩

/-- C8: on an empty input collection both filters return a present, empty
sequence and no error, for every window. -/
theorem filter_empty_input_returns_empty :
    (∀ fromT toT : Int, getScheduleIncludedCronJobs [] fromT toT = .ok [])
    ∧ (∀ fromT toT : Int, getScheduleIncludedCronWorkflows [] fromT toT = .ok []) :=
  ⟨fun _ _ => rfl, fun _ _ => rfl⟩

set_option maxRecDepth 8000 in
/-- C9: the identity key concatenates namespace and name with no
separator, so the distinct pairs ("a","bc") and ("ab","c") collide on key
"abc"; with both included, only the later item in iteration order
survives. -/
theorem filter_key_collision_collapses :
    getScheduleIncludedCronJobs
        [⟨"a", "bc", "* * * * *", false⟩, ⟨"ab", "c", "0-30 * * * *", false⟩]
        1674518400 1674522000
      = .ok [⟨"ab", "c", "0-30 * * * *", false⟩]
    ∧ getScheduleIncludedCronWorkflows
        [⟨"a", "bc", "* * * * *", false⟩, ⟨"ab", "c", "0-30 * * * *", false⟩]
        1674518400 1674522000
      = .ok [⟨"ab", "c", "0-30 * * * *", false⟩] :=
  ⟨rfl, rfl⟩

/-- C10: a non-empty collection whose schedules all parse but none of
which is included in the window yields a present, empty sequence and no
error — the empty result is not limited to empty input. -/
theorem filter_none_included_returns_empty :
    (∀ (jobs : List CronJob) (fromT toT : Int), jobs ≠ [] →
        (∀ j ∈ jobs, ∃ s, parseStandard j.schedule = some s ∧
          isInclude s fromT toT = false) →
        getScheduleIncludedCronJobs jobs fromT toT = .ok [])
    ∧ (∀ (wfs : List CronWorkflow) (fromT toT : Int), wfs ≠ [] →
        (∀ w ∈ wfs, ∃ s, parseStandard w.schedule = some s ∧
          isInclude s fromT toT = false) →
        getScheduleIncludedCronWorkflows wfs fromT toT = .ok []) := by
  constructor
  · intro jobs fromT toT _ h
    refine filterCore_ok_empty_of_none_included CronJob.ns CronJob.name CronJob.schedule
      jobs fromT toT ?_ ?_
    · intro a ha
      obtain ⟨s, hs, _⟩ := h a ha
      simp [parsesOk, hs]
    · intro a ha
      obtain ⟨s, hs, hf⟩ := h a ha
      unfold includeTest
      rw [hs]
      exact hf
  · intro wfs fromT toT _ h
    refine filterCore_ok_empty_of_none_included CronWorkflow.ns CronWorkflow.name
      CronWorkflow.schedule wfs fromT toT ?_ ?_
    · intro a ha
      obtain ⟨s, hs, _⟩ := h a ha
      simp [parsesOk, hs]
    · intro a ha
      obtain ⟨s, hs, hf⟩ := h a ha
      unfold includeTest
      rw [hs]
      exact hf

set_option maxRecDepth 8000 in
/-- Witness for C10: one CronJob (and one CronWorkflow) firing only at
02:00, outside the window ending 01:00. -/
theorem filter_none_included_returns_empty_witness :
    getScheduleIncludedCronJobs [⟨"ns", "n", "0 2 * * *", false⟩]
        1674518400 1674522000 = .ok []
    ∧ getScheduleIncludedCronWorkflows [⟨"ns", "w", "0 2 * * *", true⟩]
        1674518400 1674522000 = .ok [] :=
  ⟨filter_none_included_returns_empty.1 [⟨"ns", "n", "0 2 * * *", false⟩]
      1674518400 1674522000 (by simp)
      (fun j hj => by
        simp only [List.mem_singleton] at hj
        subst hj
        exact ⟨schedTwoAM, by decide, by decide⟩),
   filter_none_included_returns_empty.2 [⟨"ns", "w", "0 2 * * *", true⟩]
      1674518400 1674522000 (by simp)
      (fun w hw => by
        simp only [List.mem_singleton] at hw
        subst hw
        exact ⟨schedTwoAM, by decide, by decide⟩)⟩
